import Mathlib

/-
A verification development for `batch_simulations.py`: the batch orchestrator
of a Kuramoto–Sivashinsky parameter-estimation experiment.

The Python source is embedded shallowly:
  * `ParameterSet` (a Python dict) becomes an insertion-ordered association
    list `List (String × Value)` with Python-dict update semantics
    (`PyDict.set` overwrites in place, appends new keys at the end).
  * Python floats become exact rationals `ℚ`; float division by zero raises,
    which the embedding mirrors with `Option`/`Except`.
  * `itertools.product` becomes `pyProduct` (first axis slowest, last axis
    fastest, exactly as `itertools.product` iterates).
  * the external solver classes `KS`/`KSAssim` (imported from `KS_order`,
    black boxes per the specification) are abstracted as a record of their
    capability interface (`SolverOps`).
  * `np.fft.irfft` (external black box) is kept as a function parameter;
    only its documented output-length law (`2 * (n - 1)` for input length
    `n ≥ 2`) is ever assumed.
-/

namespace KSE

/-- A parameter value: a Python scalar (number or string) or a nested
mapping such as `initial_guess`. -/
inductive Value where
  | num (q : ℚ)
  | str (s : String)
  | table (kvs : List (String × ℚ))
deriving DecidableEq

instance : Inhabited Value := ⟨Value.num 0⟩

/-- A Python dict with string keys, as an insertion-ordered association list. -/
abbrev ParameterSet := List (String × Value)

namespace PyDict

/-- `k in d` for a Python dict. -/
def contains (d : List (String × α)) (k : String) : Bool :=
  d.any (fun kv => kv.1 = k)

/-- `d[k]` for a Python dict (first matching key), `none` when absent. -/
def get? : List (String × α) → String → Option α
  | [], _ => none
  | kv :: rest, k => if kv.1 = k then some kv.2 else get? rest k

/-- `d[k] = v` for a Python dict: overwrite in place when the key exists,
append at the end otherwise. -/
def set : List (String × α) → String → α → List (String × α)
  | [], k, v => [(k, v)]
  | kv :: rest, k, v => if kv.1 = k then (k, v) :: rest else kv :: set rest k v

end PyDict

/-- Python `/` on parameter values: defined exactly for two numbers with a
nonzero denominator; everything else raises (`TypeError`/`ZeroDivisionError`). -/
def pyDiv : Value → Value → Option Value
  | .num a, .num b => if b = 0 then none else some (.num (a / b))
  | _, _ => none

/-- The exceptions `run_batch` can raise. -/
inductive PyError where
  | runtimeWarning (msg : String)
  | valueError (msg : String)
  | arithOrType
deriving DecidableEq

/-- `itertools.product(*axes)`: the first axis varies slowest, the last axis
varies fastest. -/
def pyProduct : List (List α) → List (List α)
  | [] => [[]]
  | axis :: rest => axis.flatMap (fun x => (pyProduct rest).map (fun c => x :: c))

/-- The number of combinations `pyProduct` yields: the product of the axis sizes. -/
def prodSizes : List (List α) → ℕ
  | [] => 1
  | axis :: rest => axis.length * prodSizes rest

/-- The `i`-th combination in `itertools.product` order (last axis fastest). -/
def comboAt (axes : List (List Value)) (i : ℕ) : List Value :=
  match axes with
  | [] => []
  | axis :: rest => axis.getD (i / prodSizes rest) default :: comboAt rest (i % prodSizes rest)

/-- The overlay loop `for c, p in zip(choice, params_to_vary): input_params[p] = c`,
applied to a (deep) copy of the base dict — values are immutable here, so the
deep copy is the identity. -/
def overlay (base : List (String × α)) (upd : List (String × α)) : List (String × α) :=
  upd.foldl (fun d kv => PyDict.set d kv.1 kv.2) base

/-- One `if 'X_scale' in input_params:` block of lines 113–118:
`input_params[tkey] = input_params[skey] / input_params['dt']` guarded by
`skey in input_params`.  A failing division (zero or non-numeric operand)
raises, hence `Option`. -/
def scaleOne (skey tkey : String) (ps : ParameterSet) : Option ParameterSet :=
  if PyDict.contains ps skey then do
    let s ← PyDict.get? ps skey
    let d ← PyDict.get? ps "dt"
    let v ← pyDiv s d
    pure (PyDict.set ps tkey v)
  else pure ps

/-- Lines 113–118 of `batch_simulations.py`: if the combined dict defines `dt`,
derive `mu = mu_scale / dt` when `mu_scale` is present and then
`alpha = alpha_scale / dt` when `alpha_scale` is present. -/
def scaleSubst (ps : ParameterSet) : Option ParameterSet :=
  if PyDict.contains ps "dt" then do
    let ps₁ ← scaleOne "mu_scale" "mu" ps
    scaleOne "alpha_scale" "alpha" ps₁
  else pure ps

/-- `BatchSimulator.run_batch`, lines 96–121: validation, Cartesian-product
expansion, overlay on a deep copy of the base parameters, and the scale
substitutions.  Returns the expanded `param_list` handed to
`run_simulations_low`, or the exception raised. -/
def run_batch (base_params : ParameterSet) (ranges : List (String × List Value)) :
    Except PyError (List ParameterSet) :=
  if ranges.length = 0 then
    .error (.runtimeWarning "No parameter ranges specified - nothing to do!")
  else
    let params_to_vary := ranges.map Prod.fst
    if PyDict.contains base_params "mu_scale" && params_to_vary.contains "mu" then
      .error (.valueError "Cannot both set mu_scale and vary mu!")
    else if PyDict.contains base_params "alpha_scale" && params_to_vary.contains "alpha" then
      .error (.valueError "Cannot both set alpha_scale and vary alpha!")
    else
      match (pyProduct (ranges.map Prod.snd)).mapM
          (fun choice => scaleSubst (overlay base_params (params_to_vary.zip choice))) with
      | some l => .ok l
      | none => .error .arithOrType

/-- Classifies results of `run_batch` that are configuration errors raised by
the validation at lines 97–106 (empty ranges, scale/raw conflict), as opposed
to a successful expansion or an arithmetic error during substitution. -/
def isConfigError : Except PyError α → Bool
  | .error (.runtimeWarning _) => true
  | .error (.valueError _) => true
  | _ => false

/-- Concrete inputs and outputs used by witnesses and counterexamples. -/
def c2Base : ParameterSet := [("mu_scale", Value.num 2)]

def c2Ranges : List (String × List Value) := [("dt", [Value.num (1/10)])]

def c2Out : ParameterSet :=
  [("mu_scale", Value.num 2), ("dt", Value.num (1/10)), ("mu", Value.num 20)]

def c1Base : ParameterSet := [("lambda2", Value.num 1)]

def c1Ranges : List (String × List Value) :=
  [("mu", [Value.num 1, Value.num 2]), ("dt", [Value.num 2])]

def c1Out : List ParameterSet :=
  [[("lambda2", Value.num 1), ("mu", Value.num 1), ("dt", Value.num 2)],
   [("lambda2", Value.num 1), ("mu", Value.num 2), ("dt", Value.num 2)]]

/-- The duplicate ParameterSet produced twice by the C1 counterexample input. -/
def c1DupOut : ParameterSet :=
  [("mu", Value.num 3), ("mu_scale", Value.num 6), ("dt", Value.num 2)]

instance {ε α : Type} [DecidableEq ε] [DecidableEq α] : DecidableEq (Except ε α) :=
  fun a b =>
    match a, b with
    | .ok x, .ok y =>
      if h : x = y then isTrue (by rw [h]) else isFalse (fun hh => by cases hh; exact h rfl)
    | .error x, .error y =>
      if h : x = y then isTrue (by rw [h]) else isFalse (fun hh => by cases hh; exact h rfl)
    | .ok _, .error _ => isFalse (fun hh => by cases hh)
    | .error _, .ok _ => isFalse (fun hh => by cases hh)

/-- `mod_spec = spec.copy(); mod_spec[modes:] = 0` (lines 18–19): zero every
spectral coefficient at index ≥ `modes`, preserving length and leaving the
input untouched.  Scalar entries are abstracted as `ℚ` (the real code holds
complex coefficients; none of the verified properties depend on the scalar
field). -/
def truncateModes : ℕ → List ℚ → List ℚ
  | _, [] => []
  | 0, _ :: rest => 0 :: truncateModes 0 rest
  | n + 1, x :: rest => x :: truncateModes n rest

/-- `fourier_projector`, lines 17–20: truncate, then the external inverse real
FFT `np.fft.irfft` (a black box per the spec), abstracted as the `irfft`
argument. -/
def fourier_projector (irfft : List ℚ → List ℚ) (spec : List ℚ) (modes : ℕ) : List ℚ :=
  irfft (truncateModes modes spec)

/-- The documented output-length law of `np.fft.irfft`: an input of length
`n ≥ 2` yields an output of length `2 * (n - 1)`. -/
def NpIrfftLen (irfft : List ℚ → List ℚ) : Prop :=
  ∀ v : List ℚ, 2 ≤ v.length → (irfft v).length = 2 * (v.length - 1)

/-- Modelled from the spec: `np.fft.irfft` is an external black box (out of
scope per §1); this stand-in realizes its documented output-length law, which
is the only fact about it the idempotence analysis uses. -/
def irfftModel (v : List ℚ) : List ℚ := List.replicate (2 * (v.length - 1)) 0

/-- `simulation_wrapper`, lines 60–66: run the simulation; on any exception,
format the traceback, print the offending `params` and the message to the
diagnostics channel (stdout), and return `None` instead of propagating.  The
simulation body (which may raise) is the `sim` argument; the returned pair is
(return value, emitted diagnostics). -/
def simulation_wrapper {ρ : Type} (sim : ParameterSet → Except String ρ)
    (params : ParameterSet) : Option ρ × List (ParameterSet × String) :=
  match sim params with
  | .ok result => (some result, [])
  | .error message => (none, [(params, message)])

/-- One entry of the JSON index (lines 145 / 147).  The source spells the
JSON key `"succeded"`; the field keeps the source's spelling.  `filename` is
present exactly on success, `error` exactly on failure (the code stores the
empty string). -/
structure IndexEntry where
  succeded : Bool
  params : ParameterSet
  filename : Option String
  error : Option String
deriving DecidableEq

/-- Observable side effects of `run_simulations_low`, in program order:
writing a result artifact (`np.savez`), appending an entry to the in-memory
index, and (over)writing the index file with a snapshot of the whole index. -/
inductive Event (ν : Type) where
  | writeArtifact (filename : String) (result : ν)
  | appendEntry (entry : IndexEntry)
  | writeIndexFile (snapshot : List IndexEntry)
deriving DecidableEq

/-- The observable outcome of one `run_simulations_low` call: the final
in-memory index, the event trace, the periodic (non-final) index-file
snapshots in order, and the worker-pool size handed to `mp.Pool`. -/
structure OrchState (ν : Type) where
  index : List IndexEntry
  events : List (Event ν)
  snapshots : List (List IndexEntry)
  processes : ℕ
deriving DecidableEq

/-- `f"{self.outdir}/results_{i}.npz"` (line 143). -/
def artifactName (outdir : String) (i : ℕ) : String :=
  outdir ++ "/results_" ++ toString i ++ ".npz"

/-- The IndexEntry appended for the `i`-th task (lines 142–147). -/
def mkEntry (outdir : String) (i : ℕ) (params : ParameterSet) : Option ν → IndexEntry
  | some _ => ⟨true, params, some (artifactName outdir i), none⟩
  | none => ⟨false, params, none, some ""⟩

/-- The events of one loop iteration: on success the artifact write (line
144) strictly precedes the index append (line 145); on failure only the
append (line 147). -/
def stepEvents (outdir : String) (i : ℕ) (params : ParameterSet) :
    Option ν → List (Event ν)
  | some res => [.writeArtifact (artifactName outdir i) res,
                 .appendEntry (mkEntry outdir i params (some res))]
  | none => [.appendEntry (mkEntry outdir i params (none : Option ν))]

/-- The result-consumption loop of `run_simulations_low` (lines 136–156).
`results` pairs each ParameterSet with its wrapper result in submission
order (`pool.imap` yields results in submission order); `i` is the loop
counter (number of previously completed tasks).  The code increments `i` and
then tests `(i+1) % 10 == 0` for the periodic index write — with the loop
counter `i` for the current task this is `(i+2) % 10 == 0`.  After the loop
the index file is written once more, unconditionally. -/
def runSimsLoop (outdir : String) :
    List (ParameterSet × Option ν) → ℕ → List IndexEntry → List (Event ν) →
      List (List IndexEntry) →
      List IndexEntry × List (Event ν) × List (List IndexEntry)
  | [], _, index, events, snaps =>
    (index, events ++ [.writeIndexFile index], snaps)
  | (params, r) :: rest, i, index, events, snaps =>
    let index' := index ++ [mkEntry outdir i params r]
    let events' := events ++ stepEvents outdir i params r
    if (i + 1 + 1) % 10 = 0 then
      runSimsLoop outdir rest (i + 1) index'
        (events' ++ [.writeIndexFile index']) (snaps ++ [index'])
    else
      runSimsLoop outdir rest (i + 1) index' events' snaps

/-- `BatchSimulator.run_simulations_low`, lines 124–156: pool sizing — 75% of
the CPUs by default, clamped to at least 1 and at most the number of tasks —
then the ordered consumption loop.  `func` abstracts
`partial(simulation_wrapper, start_xspec=..., start_x=..., N=..., lambda2=...)`
as submitted to `pool.imap`; `cpu_count` abstracts `mp.cpu_count()`. -/
def run_simulations_low (cpu_count : ℕ) (func : ParameterSet → Option ν)
    (outdir : String) (n_jobs : Option ℕ) (param_list : List ParameterSet) :
    OrchState ν :=
  let n_jobs' := n_jobs.getD (3 * cpu_count / 4)
  let processes := min (max 1 n_jobs') param_list.length
  let r := runSimsLoop outdir (param_list.map (fun p => (p, func p))) 0 [] [] []
  { index := r.1, events := r.2.1, snapshots := r.2.2, processes := processes }

/-- `run_batch` followed by `self.run_simulations_low(param_list)` (line 122).
The `n_jobs` argument accepted by `run_batch` is *not* forwarded: the call
passes only `param_list`, so `run_simulations_low` always sees its default
`None`.  (`run_batch`'s `grid` argument is likewise unused by the body.) -/
def run_batch_exec (cpu_count : ℕ) (func : ParameterSet → Option ν)
    (outdir : String) (base_params : ParameterSet)
    (ranges : List (String × List Value)) (n_jobs : Option ℕ) :
    Except PyError (OrchState ν) :=
  (run_batch base_params ranges).map
    (run_simulations_low cpu_count func outdir none)

/-- The index entries produced for `results`, counting positions from `i`. -/
def entriesFrom (outdir : String) : ℕ → List (ParameterSet × Option ν) → List IndexEntry
  | _, [] => []
  | i, (p, r) :: rest => mkEntry outdir i p r :: entriesFrom outdir (i + 1) rest

/-- The orchestrator state of the C10 witness batch. -/
def c10State : OrchState Unit :=
  run_simulations_low 8 (fun _ => none) "out" none c1Out

/-- The capability interface of the external solver `KS` and its assimilating
variant `KSAssim` (imported from `KS_order`, black boxes per the spec):
`σ` is the reference-trajectory state, `τ` the assimilator state, `β` the
observation space in which projections are compared.  `project` plays
`partial(fourier_projector, modes=modes)`, `obsSub`/`obsNorm` the vector
subtraction and `l2_norm` applied to observations, `errMetric` the solver's
`assimilator.error(true)`, and `trueGet`/`asmGet` the `getattr` parameter
reads. -/
structure SolverOps (σ τ β : Type) where
  trueAdvance : σ → σ
  trueXspec : σ → β
  trueGet : String → σ → ℚ
  asmAdvance : τ → τ
  asmXspec : τ → β
  asmGet : String → τ → ℚ
  setTarget : β → τ → τ
  errMetric : τ → σ → ℚ
  obsSub : β → β → β
  obsNorm : β → ℚ
  project : β → β

/-- The loop state of `run_simulation`: the two trajectories and the three
accumulated error series (lines 40–42). -/
structure LoopState (σ τ : Type) where
  tru : σ
  est : τ
  interp_errors : List ℚ
  true_errors : List ℚ
  param_errors : List (String × List ℚ)

/-- One iteration of the loop at lines 44–54, in program order: record the
interpolation error on the projected observations, the full-state error, and
each estimated parameter's absolute error, then feed the target to the
assimilator and advance both trajectories. -/
def simStep (ops : SolverOps σ τ β) (st : LoopState σ τ) : LoopState σ τ :=
  let target := ops.project (ops.trueXspec st.tru)
  let projected_state := ops.project (ops.asmXspec st.est)
  { tru := ops.trueAdvance st.tru
    est := ops.asmAdvance (ops.setTarget target st.est)
    interp_errors := st.interp_errors ++ [ops.obsNorm (ops.obsSub target projected_state)]
    true_errors := st.true_errors ++ [ops.errMetric st.est st.tru]
    param_errors := st.param_errors.map
      (fun kv => (kv.1, kv.2 ++ [|ops.asmGet kv.1 st.est - ops.trueGet kv.1 st.tru|])) }

/-- Python `int(...)` on a rational: truncation toward zero. -/
def pyInt (q : ℚ) : ℤ := if 0 ≤ q then ⌊q⌋ else -⌊-q⌋

/-- `run_simulation`, lines 26–58, over the abstract solver interface:
`estimate_params = list(initial_guess.keys())` (a Python dict, so the keys
are unique), `max_n = int(max_t/dt)`, the recording loop run `max_n` times,
and the final result dict: the per-parameter error series updated with the
`interp_errors` and `true_errors` series (Python `dict.update`, i.e. the
overlay).  Construction of the two solver objects is external; their initial
states are `true0` and `est0`. -/
def run_simulation (ops : SolverOps σ τ β) (initial_guess : List (String × ℚ))
    (dt max_t : ℚ) (true0 : σ) (est0 : τ) : List (String × List ℚ) :=
  let estimate_params := initial_guess.map Prod.fst
  let max_n := (pyInt (max_t / dt)).toNat
  let final := (fun st => simStep ops st)^[max_n]
    { tru := true0, est := est0, interp_errors := [], true_errors := [],
      param_errors := estimate_params.map (fun p => (p, [])) }
  overlay final.param_errors
    [("interp_errors", final.interp_errors), ("true_errors", final.true_errors)]

/-- The trivial solver instance used by the C8 witness. -/
def trivialOps : SolverOps Unit Unit Unit :=
  { trueAdvance := id, trueXspec := fun _ => (), trueGet := fun _ _ => 0,
    asmAdvance := id, asmXspec := fun _ => (), asmGet := fun _ _ => 0,
    setTarget := fun _ _ => (), errMetric := fun _ _ => 0,
    obsSub := fun _ _ => (), obsNorm := fun _ => 0, project := id }

namespace PyDict

theorem contains_iff_mem_keys {d : List (String × α)} {k : String} :
    contains d k = true ↔ k ∈ d.map Prod.fst := by
  simp only [contains, List.any_eq_true, List.mem_map, decide_eq_true_eq]

theorem contains_eq_isSome_get? {α : Type} :
    ∀ (d : List (String × α)) (k : String), contains d k = (get? d k).isSome
  | [], _ => rfl
  | kv :: rest, k => by
    by_cases h : kv.1 = k
    · simp [contains, get?, h]
    · simp only [contains, List.any_cons, get?, if_neg h]
      rw [decide_eq_false h, Bool.false_or]
      exact contains_eq_isSome_get? rest k

theorem get?_set_self {α : Type} :
    ∀ (d : List (String × α)) (k : String) (v : α), get? (set d k v) k = some v
  | [], k, v => by simp [set, get?]
  | kv :: rest, k, v => by
    by_cases h : kv.1 = k
    · simp [set, get?, h]
    · simp only [set, if_neg h, get?, if_neg h]
      exact get?_set_self rest k v

theorem get?_set_of_ne {α : Type} :
    ∀ (d : List (String × α)) {k k' : String} (v : α),
      k' ≠ k → get? (set d k v) k' = get? d k'
  | [], k, k', v, h => by
    have h' : ¬(k = k') := fun hh => h hh.symm
    simp [set, get?, h']
  | kv :: rest, k, k', v, h => by
    have h' : ¬(k = k') := fun hh => h hh.symm
    by_cases hk : kv.1 = k
    · have hk' : ¬(kv.1 = k') := by rw [hk]; exact h'
      simp only [set, if_pos hk, get?, if_neg h', if_neg hk']
    · simp only [set, if_neg hk, get?]
      by_cases hk' : kv.1 = k'
      · simp [hk']
      · simp only [if_neg hk']
        exact get?_set_of_ne rest v h

theorem contains_set {α : Type} (d : List (String × α)) (k k' : String) (v : α) :
    contains (set d k v) k' = (decide (k = k') || contains d k') := by
  by_cases h : k = k'
  · subst h
    simp [contains_eq_isSome_get?, get?_set_self]
  · rw [contains_eq_isSome_get?, contains_eq_isSome_get?,
      get?_set_of_ne d v (fun hh => h hh.symm)]
    simp [h]

end PyDict

theorem overlay_nil (base : List (String × α)) : overlay base [] = base := rfl

theorem overlay_cons (base : List (String × α)) (kv : String × α) (rest : List (String × α)) :
    overlay base (kv :: rest) = overlay (PyDict.set base kv.1 kv.2) rest := rfl

theorem get?_overlay_of_not_mem {α : Type} :
    ∀ (upd : List (String × α)) (base : List (String × α)) (k : String),
      k ∉ upd.map Prod.fst → PyDict.get? (overlay base upd) k = PyDict.get? base k
  | [], _, _, _ => rfl
  | kv :: rest, base, k, h => by
    simp only [List.map_cons, List.mem_cons, not_or] at h
    rw [overlay_cons, get?_overlay_of_not_mem rest _ k h.2, PyDict.get?_set_of_ne _ _ h.1]

theorem get?_overlay_of_mem {α : Type} :
    ∀ (upd : List (String × α)) (base : List (String × α)) (k : String) (v : α),
      (upd.map Prod.fst).Nodup → (k, v) ∈ upd →
      PyDict.get? (overlay base upd) k = some v
  | [], _, _, _, _, hmem => absurd hmem (List.not_mem_nil _)
  | kv :: rest, base, k, v, hnd, hmem => by
    simp only [List.map_cons, List.nodup_cons] at hnd
    rcases List.mem_cons.1 hmem with h | h
    · obtain rfl : kv = (k, v) := h.symm
      rw [overlay_cons, get?_overlay_of_not_mem rest _ k hnd.1]
      exact PyDict.get?_set_self base k v
    · rw [overlay_cons]
      exact get?_overlay_of_mem rest _ k v hnd.2 h

theorem contains_overlay_iff {α : Type} :
    ∀ (upd : List (String × α)) (base : List (String × α)) (k : String),
      (PyDict.contains (overlay base upd) k = true ↔
        PyDict.contains base k = true ∨ k ∈ upd.map Prod.fst)
  | [], base, k => by simp [overlay_nil]
  | kv :: rest, base, k => by
    rw [overlay_cons, contains_overlay_iff rest _ k]
    by_cases h : kv.1 = k <;> simp [PyDict.contains_set, h] <;> tauto

theorem scaleSubst_of_no_dt {ps : ParameterSet}
    (h : PyDict.contains ps "dt" = false) : scaleSubst ps = some ps := by
  simp [scaleSubst, h]

theorem scaleOne_of_not_contains {skey tkey : String} {ps : ParameterSet}
    (h : PyDict.contains ps skey = false) : scaleOne skey tkey ps = some ps := by
  simp [scaleOne, h]

theorem scaleOne_spec {skey tkey : String} {ps ps' : ParameterSet}
    (h : scaleOne skey tkey ps = some ps') (hc : PyDict.contains ps skey = true) :
    ∃ s d : ℚ, PyDict.get? ps skey = some (.num s) ∧ PyDict.get? ps "dt" = some (.num d) ∧
      d ≠ 0 ∧ ps' = PyDict.set ps tkey (.num (s / d)) := by
  rw [scaleOne, if_pos hc] at h
  cases hs : PyDict.get? ps skey with
  | none => rw [hs] at h; cases h
  | some sv =>
    cases hd : PyDict.get? ps "dt" with
    | none => rw [hs, hd] at h; cases h
    | some dv =>
      rw [hs, hd] at h
      cases hv : pyDiv sv dv with
      | none => simp [hv] at h
      | some v =>
        simp only [hv, Option.bind_eq_bind, Option.some_bind, Option.pure_def,
          Option.some.injEq] at h
        cases sv with
        | num s =>
          cases dv with
          | num d =>
            by_cases hd0 : d = 0
            · rw [pyDiv, if_pos hd0] at hv; cases hv
            · rw [pyDiv, if_neg hd0] at hv
              cases hv
              exact ⟨s, d, rfl, rfl, hd0, h.symm⟩
          | str _ => simp [pyDiv] at hv
          | table _ => simp [pyDiv] at hv
        | str _ => simp [pyDiv] at hv
        | table _ => simp [pyDiv] at hv

theorem scaleOne_get?_of_ne {skey tkey : String} {ps ps' : ParameterSet}
    (h : scaleOne skey tkey ps = some ps') {k : String} (hk : k ≠ tkey) :
    PyDict.get? ps' k = PyDict.get? ps k := by
  by_cases hc : PyDict.contains ps skey = true
  · obtain ⟨s, d, -, -, -, rfl⟩ := scaleOne_spec h hc
    exact PyDict.get?_set_of_ne ps _ hk
  · rw [scaleOne_of_not_contains (Bool.of_not_eq_true hc)] at h
    cases h; rfl

theorem scaleOne_contains_of_ne {skey tkey : String} {ps ps' : ParameterSet}
    (h : scaleOne skey tkey ps = some ps') {k : String} (hk : k ≠ tkey) :
    PyDict.contains ps' k = PyDict.contains ps k := by
  rw [PyDict.contains_eq_isSome_get?, PyDict.contains_eq_isSome_get?,
    scaleOne_get?_of_ne h hk]

theorem scaleSubst_steps {ps ps' : ParameterSet}
    (h : scaleSubst ps = some ps') (hdt : PyDict.contains ps "dt" = true) :
    ∃ ps₁, scaleOne "mu_scale" "mu" ps = some ps₁ ∧
      scaleOne "alpha_scale" "alpha" ps₁ = some ps' := by
  rw [scaleSubst, if_pos hdt] at h
  cases h1 : scaleOne "mu_scale" "mu" ps with
  | none => rw [h1] at h; cases h
  | some ps₁ =>
    rw [h1] at h
    exact ⟨ps₁, rfl, h⟩

theorem scaleSubst_get?_of_ne {ps ps' : ParameterSet}
    (h : scaleSubst ps = some ps') {k : String}
    (hmu : k ≠ "mu") (hal : k ≠ "alpha") :
    PyDict.get? ps' k = PyDict.get? ps k := by
  by_cases hdt : PyDict.contains ps "dt" = true
  · obtain ⟨ps₁, h1, h2⟩ := scaleSubst_steps h hdt
    rw [scaleOne_get?_of_ne h2 hal, scaleOne_get?_of_ne h1 hmu]
  · rw [scaleSubst_of_no_dt (Bool.of_not_eq_true hdt)] at h
    cases h; rfl

theorem scaleSubst_contains_of_ne {ps ps' : ParameterSet}
    (h : scaleSubst ps = some ps') {k : String}
    (hmu : k ≠ "mu") (hal : k ≠ "alpha") :
    PyDict.contains ps' k = PyDict.contains ps k := by
  rw [PyDict.contains_eq_isSome_get?, PyDict.contains_eq_isSome_get?,
    scaleSubst_get?_of_ne h hmu hal]

theorem scaleSubst_mu_spec {ps ps' : ParameterSet}
    (h : scaleSubst ps = some ps') (hdt : PyDict.contains ps "dt" = true)
    (hms : PyDict.contains ps "mu_scale" = true) :
    ∃ s d : ℚ, PyDict.get? ps' "mu_scale" = some (.num s) ∧
      PyDict.get? ps' "dt" = some (.num d) ∧ d ≠ 0 ∧
      PyDict.get? ps' "mu" = some (.num (s / d)) := by
  obtain ⟨ps₁, h1, h2⟩ := scaleSubst_steps h hdt
  obtain ⟨s, d, hs, hd, hd0, rfl⟩ := scaleOne_spec h1 hms
  refine ⟨s, d, ?_, ?_, hd0, ?_⟩
  · rw [scaleOne_get?_of_ne h2 (by decide), PyDict.get?_set_of_ne ps _ (by decide)]
    exact hs
  · rw [scaleOne_get?_of_ne h2 (by decide), PyDict.get?_set_of_ne ps _ (by decide)]
    exact hd
  · rw [scaleOne_get?_of_ne h2 (by decide)]
    exact PyDict.get?_set_self ps "mu" _

theorem scaleSubst_alpha_spec {ps ps' : ParameterSet}
    (h : scaleSubst ps = some ps') (hdt : PyDict.contains ps "dt" = true)
    (has : PyDict.contains ps "alpha_scale" = true) :
    ∃ s d : ℚ, PyDict.get? ps' "alpha_scale" = some (.num s) ∧
      PyDict.get? ps' "dt" = some (.num d) ∧ d ≠ 0 ∧
      PyDict.get? ps' "alpha" = some (.num (s / d)) := by
  obtain ⟨ps₁, h1, h2⟩ := scaleSubst_steps h hdt
  have has₁ : PyDict.contains ps₁ "alpha_scale" = true := by
    rw [scaleOne_contains_of_ne h1 (by decide)]; exact has
  obtain ⟨s, d, hs, hd, hd0, rfl⟩ := scaleOne_spec h2 has₁
  refine ⟨s, d, ?_, ?_, hd0, ?_⟩
  · rw [PyDict.get?_set_of_ne ps₁ _ (by decide)]
    exact hs
  · rw [PyDict.get?_set_of_ne ps₁ _ (by decide)]
    exact hd
  · exact PyDict.get?_set_self ps₁ "alpha" _

theorem scaleSubst_mu_skip {ps ps' : ParameterSet}
    (h : scaleSubst ps = some ps') (hms : PyDict.contains ps "mu_scale" = false) :
    PyDict.get? ps' "mu" = PyDict.get? ps "mu" := by
  by_cases hdt : PyDict.contains ps "dt" = true
  · obtain ⟨ps₁, h1, h2⟩ := scaleSubst_steps h hdt
    rw [scaleOne_of_not_contains hms] at h1
    cases h1
    exact scaleOne_get?_of_ne h2 (by decide)
  · rw [scaleSubst_of_no_dt (Bool.of_not_eq_true hdt)] at h
    cases h; rfl

theorem scaleSubst_alpha_skip {ps ps' : ParameterSet}
    (h : scaleSubst ps = some ps') (has : PyDict.contains ps "alpha_scale" = false) :
    PyDict.get? ps' "alpha" = PyDict.get? ps "alpha" := by
  by_cases hdt : PyDict.contains ps "dt" = true
  · obtain ⟨ps₁, h1, h2⟩ := scaleSubst_steps h hdt
    have has₁ : PyDict.contains ps₁ "alpha_scale" = false := by
      rw [scaleOne_contains_of_ne h1 (by decide)]; exact has
    rw [scaleOne_of_not_contains has₁] at h2
    cases h2
    exact scaleOne_get?_of_ne h1 (by decide)
  · rw [scaleSubst_of_no_dt (Bool.of_not_eq_true hdt)] at h
    cases h; rfl

theorem contains_of_isSome_get? {α : Type} {d : List (String × α)} {k : String}
    (h : (PyDict.get? d k).isSome) : PyDict.contains d k = true := by
  rw [PyDict.contains_eq_isSome_get?]; exact h

theorem isSome_get?_of_contains {α : Type} {d : List (String × α)} {k : String}
    (h : PyDict.contains d k = true) : (PyDict.get? d k).isSome := by
  rw [← PyDict.contains_eq_isSome_get?]; exact h

theorem length_pyProduct (axes : List (List α)) :
    (pyProduct axes).length = prodSizes axes := by
  induction axes with
  | nil => rfl
  | cons axis rest ih =>
    rw [pyProduct, prodSizes, ← ih]
    induction axis with
    | nil => simp
    | cons a axis iha =>
      rw [List.flatMap_cons, List.length_append, List.length_map, iha, List.length_cons]
      ring

theorem length_of_mem_pyProduct {axes : List (List α)} {c : List α}
    (h : c ∈ pyProduct axes) : c.length = axes.length := by
  induction axes generalizing c with
  | nil => simp [pyProduct] at h; simp [h]
  | cons axis rest ih =>
    simp only [pyProduct, List.mem_flatMap, List.mem_map] at h
    obtain ⟨x, -, c', hc', rfl⟩ := h
    simp [ih hc']

theorem mem_pyProduct {axes : List (List α)} {c : List α} :
    c ∈ pyProduct axes ↔ List.Forall₂ (fun x axis => x ∈ axis) c axes := by
  induction axes generalizing c with
  | nil =>
    simp only [pyProduct, List.mem_singleton]
    constructor
    · rintro rfl; exact .nil
    · intro h; cases h; rfl
  | cons axis rest ih =>
    simp only [pyProduct, List.mem_flatMap, List.mem_map]
    constructor
    · rintro ⟨x, hx, c', hc', rfl⟩
      exact .cons hx (ih.1 hc')
    · intro h
      cases h with
      | cons hx hrest => exact ⟨_, hx, _, ih.2 hrest, rfl⟩

theorem nodup_pyProduct {axes : List (List α)}
    (h : ∀ axis ∈ axes, axis.Nodup) : (pyProduct axes).Nodup := by
  induction axes with
  | nil => simp [pyProduct]
  | cons axis rest ih =>
    have hax : axis.Nodup := h axis (List.mem_cons_self _ _)
    have hrest : (pyProduct rest).Nodup := ih fun a ha => h a (List.mem_cons_of_mem _ ha)
    refine List.nodup_flatMap.2 ⟨fun x _ => hrest.map ?_, ?_⟩
    · intro c c' hcc'
      exact (List.cons.injEq _ _ _ _ ▸ hcc').2
    · refine hax.imp ?_
      intro x y hxy
      simp only [Function.onFun, List.disjoint_left, List.mem_map]
      rintro c ⟨c₁, -, rfl⟩ ⟨c₂, -, hc⟩
      exact hxy (List.cons.injEq _ _ _ _ ▸ hc).1.symm

theorem getElem?_flatMap_uniform {α β : Type} {l : List α} {f : α → List β} {B : ℕ}
    (hB : ∀ a ∈ l, (f a).length = B) (d : α) :
    ∀ {i : ℕ}, i < l.length * B → (l.flatMap f)[i]? = (f (l.getD (i / B) d))[i % B]? := by
  induction l with
  | nil => intro i hi; simp at hi
  | cons a t ih =>
    intro i hi
    have hfa : (f a).length = B := hB a (List.mem_cons_self _ _)
    have hB0 : 0 < B := by
      rcases Nat.eq_zero_or_pos B with h0 | h0
      · subst h0; simp at hi
      · exact h0
    rw [List.flatMap_cons]
    by_cases h : i < B
    · rw [List.getElem?_append_left (by rw [hfa]; exact h)]
      simp [Nat.div_eq_of_lt h, Nat.mod_eq_of_lt h, List.getD]
    · push_neg at h
      obtain ⟨j, rfl⟩ : ∃ j, i = B + j := ⟨i - B, (Nat.add_sub_cancel' h).symm⟩
      rw [List.getElem?_append_right (by rw [hfa]; exact h), hfa, Nat.add_sub_cancel_left]
      have hj : j < t.length * B := by
        have := List.length_cons a t ▸ hi
        rw [Nat.succ_mul] at this
        omega
      rw [ih (fun x hx => hB x (List.mem_cons_of_mem _ hx)) hj]
      have hdiv : (B + j) / B = j / B + 1 := by
        rw [Nat.add_comm, Nat.add_div_right _ hB0]
      have hmod : (B + j) % B = j % B := Nat.add_mod_left B j
      rw [hdiv, hmod, List.getD_cons_succ]

theorem getElem?_pyProduct {axes : List (List Value)} :
    ∀ {i : ℕ}, i < prodSizes axes → (pyProduct axes)[i]? = some (comboAt axes i) := by
  induction axes with
  | nil =>
    intro i hi
    simp only [prodSizes] at hi
    obtain rfl : i = 0 := Nat.lt_one_iff.1 hi
    rfl
  | cons axis rest ih =>
    intro i hi
    simp only [prodSizes] at hi
    have hB : ∀ a ∈ axis, ((pyProduct rest).map (fun c => a :: c)).length = prodSizes rest := by
      intro a _; rw [List.length_map, length_pyProduct]
    have hB0 : 0 < prodSizes rest := by
      rcases Nat.eq_zero_or_pos (prodSizes rest) with h0 | h0
      · rw [h0, Nat.mul_zero] at hi; omega
      · exact h0
    have hmod : i % prodSizes rest < prodSizes rest := Nat.mod_lt _ hB0
    simp only [pyProduct]
    rw [getElem?_flatMap_uniform hB default hi, List.getElem?_map, ih hmod]
    simp [comboAt]

theorem mapM_option_eq_some {α β : Type} (f : α → Option β) :
    ∀ (l : List α) (r : List β),
      (l.mapM f = some r ↔ List.Forall₂ (fun a b => f a = some b) l r)
  | [], r => by
    rw [← List.mapM'_eq_mapM]
    simp only [List.mapM']
    constructor
    · intro h; cases h; exact .nil
    · intro h; cases h; rfl
  | a :: l, r => by
    rw [← List.mapM'_eq_mapM]
    simp only [List.mapM']
    constructor
    · intro h
      cases hfa : f a with
      | none => simp [hfa] at h
      | some b =>
        simp only [hfa, Option.bind_eq_bind, Option.some_bind] at h
        cases hml : List.mapM' f l with
        | none => simp [hml] at h
        | some bs =>
          simp only [hml, Option.some_bind] at h
          cases h
          refine List.Forall₂.cons hfa ((mapM_option_eq_some f l bs).1 ?_)
          rw [← List.mapM'_eq_mapM]; exact hml
    · intro h
      cases h with
      | cons hab hrest =>
        rename_i b bs
        have h2 := (mapM_option_eq_some f l bs).2 hrest
        rw [← List.mapM'_eq_mapM] at h2
        simp [hab, h2]

/-- Inversion of a successful `run_batch`: the validation checks passed and the
output list is the pointwise image of the Cartesian product under
overlay-then-substitute. -/
theorem run_batch_ok_inv {base_params : ParameterSet} {ranges : List (String × List Value)}
    {L : List ParameterSet} (h : run_batch base_params ranges = .ok L) :
    ranges ≠ [] ∧
    ¬(PyDict.contains base_params "mu_scale" = true ∧ "mu" ∈ ranges.map Prod.fst) ∧
    ¬(PyDict.contains base_params "alpha_scale" = true ∧ "alpha" ∈ ranges.map Prod.fst) ∧
    List.Forall₂
      (fun choice ps =>
        scaleSubst (overlay base_params ((ranges.map Prod.fst).zip choice)) = some ps)
      (pyProduct (ranges.map Prod.snd)) L := by
  rw [run_batch] at h
  by_cases h0 : ranges.length = 0
  · rw [if_pos h0] at h; cases h
  · rw [if_neg h0] at h
    by_cases hmu :
        (PyDict.contains base_params "mu_scale" && (ranges.map Prod.fst).contains "mu") = true
    · rw [if_pos hmu] at h; cases h
    · rw [if_neg hmu] at h
      by_cases hal :
          (PyDict.contains base_params "alpha_scale" &&
            (ranges.map Prod.fst).contains "alpha") = true
      · rw [if_pos hal] at h; cases h
      · rw [if_neg hal] at h
        refine ⟨fun he => h0 (he ▸ rfl), ?_, ?_, ?_⟩
        · intro ⟨hb, hr⟩
          exact hmu (by rw [hb, Bool.true_and]; exact List.elem_eq_true_of_mem hr)
        · intro ⟨hb, hr⟩
          exact hal (by rw [hb, Bool.true_and]; exact List.elem_eq_true_of_mem hr)
        · cases hm : (pyProduct (ranges.map Prod.snd)).mapM
              (fun choice =>
                scaleSubst (overlay base_params ((ranges.map Prod.fst).zip choice))) with
          | none => rw [hm] at h; cases h
          | some l =>
            rw [hm] at h
            cases h
            exact (mapM_option_eq_some _ _ _).1 hm

/-- **C4** — counterexample.  The claim says `run_batch` fails whenever a scale
form and its raw form are simultaneously active *in any combination of base
parameters and ranges*.  But the code only checks `mu_scale` in the base
against `mu` in the ranges: raw `mu` in the base together with `mu_scale` in
the ranges passes validation and expands, silently overwriting `mu` with
`mu_scale / dt = 20`. -/
theorem run_batch_validation_counterexample :
    run_batch [("mu", Value.num 1)]
        [("mu_scale", [Value.num 2]), ("dt", [Value.num (1/10)])] =
      .ok [[("mu", Value.num 20), ("mu_scale", Value.num 2), ("dt", Value.num (1/10))]] ∧
    isConfigError (run_batch [("mu", Value.num 1)]
        [("mu_scale", [Value.num 2]), ("dt", [Value.num (1/10)])]) = false ∧
    PyDict.contains [("mu", Value.num 1)] "mu" = true ∧
    "mu_scale" ∈ (([("mu_scale", [Value.num 2]),
        ("dt", [Value.num (1/10)])] : List (String × List Value)).map Prod.fst) := by
  have h : run_batch [("mu", Value.num 1)]
      [("mu_scale", [Value.num 2]), ("dt", [Value.num (1/10)])] =
      .ok [[("mu", Value.num 20), ("mu_scale", Value.num 2), ("dt", Value.num (1/10))]] := by
    norm_num +decide [run_batch, pyProduct, overlay, scaleSubst, scaleOne, pyDiv,
      PyDict.set, PyDict.get?, PyDict.contains, List.mapM.loop]
  refine ⟨h, by rw [h]; rfl, by decide, by simp⟩

/-- **C4** — amended claim, proved.  `run_batch` raises a configuration error
(before any expansion, worker dispatch, or simulation) exactly when `ranges`
is empty, or `mu_scale` is in the base parameters while `mu` is a range key,
or `alpha_scale` is in the base parameters while `alpha` is a range key; the
symmetric raw-in-base/scale-in-ranges conflicts are not detected. -/
theorem run_batch_validation_amended (base_params : ParameterSet)
    (ranges : List (String × List Value)) :
    isConfigError (run_batch base_params ranges) = true ↔
      ranges = [] ∨
      (PyDict.contains base_params "mu_scale" = true ∧ "mu" ∈ ranges.map Prod.fst) ∨
      (PyDict.contains base_params "alpha_scale" = true ∧ "alpha" ∈ ranges.map Prod.fst) := by
  rw [run_batch]
  by_cases h0 : ranges.length = 0
  · rcases ranges with - | ⟨r, rs⟩
    · simp [isConfigError]
    · cases h0
  · have hne : ¬(ranges = []) := fun he => h0 (he ▸ rfl)
    rw [if_neg h0]
    by_cases hmu :
        (PyDict.contains base_params "mu_scale" && (ranges.map Prod.fst).contains "mu") = true
    · rw [if_pos hmu]
      rw [Bool.and_eq_true, List.elem_iff] at hmu
      simp only [isConfigError]
      simp [hne, hmu]
    · rw [if_neg hmu]
      rw [Bool.and_eq_true] at hmu
      rw [List.elem_iff] at hmu
      by_cases hal :
          (PyDict.contains base_params "alpha_scale" &&
            (ranges.map Prod.fst).contains "alpha") = true
      · rw [if_pos hal]
        rw [Bool.and_eq_true, List.elem_iff] at hal
        simp [isConfigError, hne, hal]
      · rw [if_neg hal]
        rw [Bool.and_eq_true] at hal
        rw [List.elem_iff] at hal
        have hrhs : ¬(ranges = [] ∨
            (PyDict.contains base_params "mu_scale" = true ∧ "mu" ∈ ranges.map Prod.fst) ∨
            (PyDict.contains base_params "alpha_scale" = true ∧
              "alpha" ∈ ranges.map Prod.fst)) := by
          rintro (he | hc | hc)
          · exact hne he
          · exact hmu hc
          · exact hal hc
        cases hm : (pyProduct (ranges.map Prod.snd)).mapM
            (fun choice =>
              scaleSubst (overlay base_params ((ranges.map Prod.fst).zip choice))) with
        | none =>
          simp only [isConfigError, Bool.false_eq_true, false_iff]
          exact hrhs
        | some l =>
          simp only [isConfigError, Bool.false_eq_true, false_iff]
          exact hrhs

/-- **C2**.  In every ParameterSet expanded by a successful `run_batch`: if it
defines `dt` and `mu_scale` then its `mu` is exactly `mu_scale / dt` (exact
rational arithmetic, overwriting any prior `mu`); symmetrically
`alpha = alpha_scale / dt`; and if it does not define `dt`, no substitution
occurred — the set is exactly the combination overlaid on the base set. -/
theorem run_batch_scale_subst {base_params : ParameterSet}
    {ranges : List (String × List Value)} {L : List ParameterSet}
    (hok : run_batch base_params ranges = .ok L) {i : ℕ} {ps : ParameterSet}
    (hi : L[i]? = some ps) :
    (PyDict.contains ps "dt" = true →
      (PyDict.contains ps "mu_scale" = true →
        ∃ s d : ℚ, PyDict.get? ps "mu_scale" = some (.num s) ∧
          PyDict.get? ps "dt" = some (.num d) ∧ d ≠ 0 ∧
          PyDict.get? ps "mu" = some (.num (s / d))) ∧
      (PyDict.contains ps "alpha_scale" = true →
        ∃ s d : ℚ, PyDict.get? ps "alpha_scale" = some (.num s) ∧
          PyDict.get? ps "dt" = some (.num d) ∧ d ≠ 0 ∧
          PyDict.get? ps "alpha" = some (.num (s / d)))) ∧
    (PyDict.contains ps "dt" = false →
      ps = overlay base_params
        ((ranges.map Prod.fst).zip (comboAt (ranges.map Prod.snd) i))) := by
  obtain ⟨-, -, -, hfa⟩ := run_batch_ok_inv hok
  obtain ⟨hiL, hget⟩ := List.getElem?_eq_some_iff.1 hi
  have hlen := hfa.length_eq
  have hic : i < (pyProduct (ranges.map Prod.snd)).length := by omega
  have hip : i < prodSizes (ranges.map Prod.snd) := by
    rwa [length_pyProduct] at hic
  have hcombo : (pyProduct (ranges.map Prod.snd))[i] = comboAt (ranges.map Prod.snd) i := by
    have := getElem?_pyProduct hip
    rwa [List.getElem?_eq_getElem hic, Option.some_inj] at this
  have hF : scaleSubst (overlay base_params
      ((ranges.map Prod.fst).zip (comboAt (ranges.map Prod.snd) i))) = some ps := by
    have := (List.forall₂_iff_get.1 hfa).2 i hic hiL
    rw [List.get_eq_getElem, List.get_eq_getElem, hcombo, hget] at this
    exact this
  set ov := overlay base_params
    ((ranges.map Prod.fst).zip (comboAt (ranges.map Prod.snd) i)) with hov
  have hdt_eq : PyDict.contains ps "dt" = PyDict.contains ov "dt" :=
    scaleSubst_contains_of_ne hF (by decide) (by decide)
  refine ⟨fun hdt => ?_, fun hdt => ?_⟩
  · have hdt' : PyDict.contains ov "dt" = true := hdt_eq ▸ hdt
    refine ⟨fun hms => ?_, fun has => ?_⟩
    · have e : PyDict.contains ps "mu_scale" = PyDict.contains ov "mu_scale" :=
        scaleSubst_contains_of_ne hF (by decide) (by decide)
      exact scaleSubst_mu_spec hF hdt' (e ▸ hms)
    · have e : PyDict.contains ps "alpha_scale" = PyDict.contains ov "alpha_scale" :=
        scaleSubst_contains_of_ne hF (by decide) (by decide)
      exact scaleSubst_alpha_spec hF hdt' (e ▸ has)
  · have hdt' : PyDict.contains ov "dt" = false := hdt_eq ▸ hdt
    rw [scaleSubst_of_no_dt hdt'] at hF
    exact (Option.some_inj.1 hF).symm

/-- Each varied key's combination value survives overlay-then-substitution,
provided a varied `mu`/`alpha` has no active scale partner. -/
theorem build_get? {base : ParameterSet} {keys : List String} {c : List Value}
    {ps : ParameterSet}
    (hc : c.length = keys.length) (hknd : keys.Nodup)
    (hmu : "mu" ∈ keys → ("mu_scale" ∉ keys ∧ PyDict.contains base "mu_scale" = false))
    (hal : "alpha" ∈ keys → ("alpha_scale" ∉ keys ∧ PyDict.contains base "alpha_scale" = false))
    (hF : scaleSubst (overlay base (keys.zip c)) = some ps)
    (j : ℕ) (hj : j < keys.length) (hj' : j < c.length) :
    PyDict.get? ps (keys.get ⟨j, hj⟩) = some (c.get ⟨j, hj'⟩) := by
  set p := keys.get ⟨j, hj⟩ with hp
  have hpmem : p ∈ keys := List.get_mem keys j hj
  have hzip : (p, c.get ⟨j, hj'⟩) ∈ keys.zip c := by
    have hjz : j < (keys.zip c).length := by
      rw [List.length_zip]; omega
    have : (keys.zip c).get ⟨j, hjz⟩ = (p, c.get ⟨j, hj'⟩) := by
      simp [List.getElem_zip, hp]
    rw [← this]
    exact List.get_mem _ j hjz
  have hzk : (keys.zip c).map Prod.fst = keys := List.map_fst_zip keys c (le_of_eq hc.symm)
  have hznd : ((keys.zip c).map Prod.fst).Nodup := by rw [hzk]; exact hknd
  have hov : PyDict.get? (overlay base (keys.zip c)) p = some (c.get ⟨j, hj'⟩) :=
    get?_overlay_of_mem _ _ _ _ hznd hzip
  by_cases hpm : p = "mu"
  · have hnoms : PyDict.contains (overlay base (keys.zip c)) "mu_scale" = false := by
      obtain ⟨hnk, hnb⟩ := hmu (hpm ▸ hpmem)
      rw [Bool.eq_false_iff]
      intro hcon
      rcases (contains_overlay_iff _ _ _).1 hcon with hb | hk
      · rw [hnb] at hb; cases hb
      · exact hnk (hzk ▸ hk)
    rw [hpm] at hov ⊢
    rw [scaleSubst_mu_skip hF hnoms]
    exact hov
  · by_cases hpa : p = "alpha"
    · have hnoas : PyDict.contains (overlay base (keys.zip c)) "alpha_scale" = false := by
        obtain ⟨hnk, hnb⟩ := hal (hpa ▸ hpmem)
        rw [Bool.eq_false_iff]
        intro hcon
        rcases (contains_overlay_iff _ _ _).1 hcon with hb | hk
        · rw [hnb] at hb; cases hb
        · exact hnk (hzk ▸ hk)
      rw [hpa] at hov ⊢
      rw [scaleSubst_alpha_skip hF hnoas]
      exact hov
    · rw [scaleSubst_get?_of_ne hF hpm hpa]
      exact hov

/-- Two combinations producing the same expanded set are equal (under the
hypotheses of `build_get?`). -/
theorem build_inj {base : ParameterSet} {keys : List String} {c c' : List Value}
    {ps : ParameterSet}
    (hknd : keys.Nodup)
    (hmu : "mu" ∈ keys → ("mu_scale" ∉ keys ∧ PyDict.contains base "mu_scale" = false))
    (hal : "alpha" ∈ keys → ("alpha_scale" ∉ keys ∧ PyDict.contains base "alpha_scale" = false))
    (hc : c.length = keys.length) (hc' : c'.length = keys.length)
    (hF : scaleSubst (overlay base (keys.zip c)) = some ps)
    (hF' : scaleSubst (overlay base (keys.zip c')) = some ps) : c = c' := by
  refine List.ext_get (hc.trans hc'.symm) ?_
  intro j h1 h2
  have hj : j < keys.length := hc ▸ h1
  have e1 := build_get? hc hknd hmu hal hF j hj h1
  have e2 := build_get? hc' hknd hmu hal hF' j hj h2
  exact Option.some_inj.1 (e1.symm.trans e2)

/-- **C1** — amended claim, proved.  For a successful `run_batch` whose range
keys are distinct, whose axes are duplicate-free, and where a varied raw
parameter's scale partner is not also varied, the output has exactly
`∏ nᵢ` ParameterSets; the `i`-th is the `i`-th Cartesian combination (in
`itertools.product` order — last range axis varies fastest, as `comboAt`
indexes by `i / ∏ later sizes` and `i % ∏ later sizes`) overlaid on a deep
copy of the base set followed by the scale substitutions; every combination
is realized; and the outputs are pairwise distinct, covering the Cartesian
space exactly once. -/
theorem run_batch_grid {base_params : ParameterSet}
    {ranges : List (String × List Value)} {L : List ParameterSet}
    (hok : run_batch base_params ranges = .ok L)
    (hkeys : (ranges.map Prod.fst).Nodup)
    (haxes : ∀ pr ∈ ranges, (Prod.snd pr).Nodup)
    (hmuv : "mu" ∈ ranges.map Prod.fst → "mu_scale" ∉ ranges.map Prod.fst)
    (halv : "alpha" ∈ ranges.map Prod.fst → "alpha_scale" ∉ ranges.map Prod.fst) :
    L.length = prodSizes (ranges.map Prod.snd) ∧
    (∀ i : ℕ, i < L.length →
      L[i]? = scaleSubst (overlay base_params
        ((ranges.map Prod.fst).zip (comboAt (ranges.map Prod.snd) i)))) ∧
    (∀ c ∈ pyProduct (ranges.map Prod.snd),
      ∃ ps ∈ L, scaleSubst (overlay base_params ((ranges.map Prod.fst).zip c)) = some ps) ∧
    L.Nodup := by
  obtain ⟨-, hvmu, hval, hfa⟩ := run_batch_ok_inv hok
  have hlen := hfa.length_eq
  have hlenp : L.length = prodSizes (ranges.map Prod.snd) := by
    rw [← hlen, length_pyProduct]
  have hklen : (ranges.map Prod.fst).length = ranges.length := List.length_map _ _
  have halen : (ranges.map Prod.snd).length = ranges.length := List.length_map _ _
  have hmu' : "mu" ∈ ranges.map Prod.fst →
      ("mu_scale" ∉ ranges.map Prod.fst ∧
        PyDict.contains base_params "mu_scale" = false) := by
    intro hm
    refine ⟨hmuv hm, ?_⟩
    cases hb : PyDict.contains base_params "mu_scale"
    · rfl
    · exact absurd ⟨hb, hm⟩ hvmu
  have hal' : "alpha" ∈ ranges.map Prod.fst →
      ("alpha_scale" ∉ ranges.map Prod.fst ∧
        PyDict.contains base_params "alpha_scale" = false) := by
    intro hm
    refine ⟨halv hm, ?_⟩
    cases hb : PyDict.contains base_params "alpha_scale"
    · rfl
    · exact absurd ⟨hb, hm⟩ hval
  have hclen : ∀ c ∈ pyProduct (ranges.map Prod.snd),
      c.length = (ranges.map Prod.fst).length := by
    intro c hcm
    rw [length_of_mem_pyProduct hcm, halen, hklen]
  have hpoint : ∀ (i : ℕ) (hic : i < (pyProduct (ranges.map Prod.snd)).length)
      (hiL : i < L.length),
      scaleSubst (overlay base_params
        ((ranges.map Prod.fst).zip ((pyProduct (ranges.map Prod.snd)).get ⟨i, hic⟩))) =
        some (L.get ⟨i, hiL⟩) :=
    fun i hic hiL => (List.forall₂_iff_get.1 hfa).2 i hic hiL
  refine ⟨hlenp, ?_, ?_, ?_⟩
  · intro i hiL
    have hic : i < (pyProduct (ranges.map Prod.snd)).length := by omega
    have hip : i < prodSizes (ranges.map Prod.snd) := by rwa [length_pyProduct] at hic
    have hcombo : (pyProduct (ranges.map Prod.snd))[i] = comboAt (ranges.map Prod.snd) i := by
      have := getElem?_pyProduct hip
      rwa [List.getElem?_eq_getElem hic, Option.some_inj] at this
    have := hpoint i hic hiL
    rw [List.get_eq_getElem, List.get_eq_getElem, hcombo] at this
    rw [List.getElem?_eq_getElem hiL, this]
  · intro c hcm
    obtain ⟨⟨i, hic⟩, hceq⟩ := List.mem_iff_get.1 hcm
    have hiL : i < L.length := by omega
    refine ⟨L.get ⟨i, hiL⟩, ?_, ?_⟩
    · exact List.get_mem L i hiL
    · rw [← hceq]
      exact hpoint i hic hiL
  · rw [List.nodup_iff_injective_get]
    rintro ⟨i, hi⟩ ⟨j, hj⟩ hij
    have hic : i < (pyProduct (ranges.map Prod.snd)).length := by omega
    have hjc : j < (pyProduct (ranges.map Prod.snd)).length := by omega
    have h1 := hpoint i hic hi
    have h2 := hpoint j hjc hj
    rw [hij] at h1
    have hceq : (pyProduct (ranges.map Prod.snd)).get ⟨i, hic⟩ =
        (pyProduct (ranges.map Prod.snd)).get ⟨j, hjc⟩ :=
      build_inj hkeys hmu' hal'
        (hclen _ (List.get_mem _ i hic)) (hclen _ (List.get_mem _ j hjc)) h1 h2
    have hnp : (pyProduct (ranges.map Prod.snd)).Nodup := by
      refine nodup_pyProduct ?_
      intro axis haxis
      obtain ⟨pr, hpr, rfl⟩ := List.mem_map.1 haxis
      exact haxes pr hpr
    have := List.nodup_iff_injective_get.1 hnp hceq
    have hij2 : i = j := congrArg Fin.val this
    exact Fin.ext hij2

/-- **C1** — counterexample.  With base `{}` and ranges
`{mu: [1, 2], mu_scale: [6], dt: [2]}` (a non-empty ranges mapping that
passes validation), `run_batch` produces the *same* ParameterSet twice: the
scale substitution overwrites the varied `mu` with `mu_scale / dt = 3` in
both combinations.  The outputs are not distinct, do not cover the Cartesian
space exactly once, and are not plain overlays of the combinations (the
first combination set `mu = 1`, yet the output's `mu` is `3`). -/
theorem run_batch_grid_counterexample :
    run_batch []
        [("mu", [Value.num 1, Value.num 2]), ("mu_scale", [Value.num 6]),
          ("dt", [Value.num 2])] =
      .ok [c1DupOut, c1DupOut] ∧
    ¬ ([c1DupOut, c1DupOut].Nodup) ∧
    PyDict.get? c1DupOut "mu" = some (Value.num 3) ∧
    Value.num 3 ≠ Value.num 1 := by
  refine ⟨?_, by decide, by decide, by norm_num⟩
  norm_num +decide [c1DupOut, run_batch, pyProduct, overlay, scaleSubst, scaleOne, pyDiv,
    PyDict.set, PyDict.get?, PyDict.contains, List.mapM.loop]

/-- Witness for `run_batch_grid`: a concrete two-axis sweep (no scale keys)
whose hypotheses all hold, with the conclusion instantiated. -/
theorem run_batch_grid_witness :
    run_batch c1Base c1Ranges = .ok c1Out ∧
    (c1Ranges.map Prod.fst).Nodup ∧
    (∀ pr ∈ c1Ranges, (Prod.snd pr).Nodup) ∧
    ("mu" ∈ c1Ranges.map Prod.fst → "mu_scale" ∉ c1Ranges.map Prod.fst) ∧
    ("alpha" ∈ c1Ranges.map Prod.fst → "alpha_scale" ∉ c1Ranges.map Prod.fst) ∧
    (c1Out.length = prodSizes (c1Ranges.map Prod.snd) ∧
      (∀ i : ℕ, i < c1Out.length →
        c1Out[i]? = scaleSubst (overlay c1Base
          ((c1Ranges.map Prod.fst).zip (comboAt (c1Ranges.map Prod.snd) i)))) ∧
      (∀ c ∈ pyProduct (c1Ranges.map Prod.snd),
        ∃ ps ∈ c1Out, scaleSubst (overlay c1Base ((c1Ranges.map Prod.fst).zip c)) = some ps) ∧
      c1Out.Nodup) := by
  have hok : run_batch c1Base c1Ranges = .ok c1Out := by decide
  exact ⟨hok, by decide, by decide, by decide, by decide,
    run_batch_grid hok (by decide) (by decide) (by decide) (by decide)⟩

/-- Witness for `run_batch_scale_subst`: base `{mu_scale: 2}` swept over
`dt = [1/10]` yields a single set whose `mu` is exactly `2 / (1/10) = 20`. -/
theorem run_batch_scale_subst_witness :
    run_batch c2Base c2Ranges = .ok [c2Out] ∧
    ([c2Out] : List ParameterSet)[0]? = some c2Out ∧
    ((PyDict.contains c2Out "dt" = true →
      (PyDict.contains c2Out "mu_scale" = true →
        ∃ s d : ℚ, PyDict.get? c2Out "mu_scale" = some (.num s) ∧
          PyDict.get? c2Out "dt" = some (.num d) ∧ d ≠ 0 ∧
          PyDict.get? c2Out "mu" = some (.num (s / d))) ∧
      (PyDict.contains c2Out "alpha_scale" = true →
        ∃ s d : ℚ, PyDict.get? c2Out "alpha_scale" = some (.num s) ∧
          PyDict.get? c2Out "dt" = some (.num d) ∧ d ≠ 0 ∧
          PyDict.get? c2Out "alpha" = some (.num (s / d)))) ∧
    (PyDict.contains c2Out "dt" = false →
      c2Out = overlay c2Base
        ((c2Ranges.map Prod.fst).zip (comboAt (c2Ranges.map Prod.snd) 0)))) := by
  have hok : run_batch c2Base c2Ranges = .ok [c2Out] := by
    norm_num +decide [c2Base, c2Ranges, c2Out, run_batch, pyProduct, overlay, scaleSubst,
      scaleOne, pyDiv, PyDict.set, PyDict.get?, PyDict.contains, List.mapM.loop]
  exact ⟨hok, rfl, run_batch_scale_subst hok rfl⟩

theorem length_truncateModes : ∀ (m : ℕ) (x : List ℚ),
    (truncateModes m x).length = x.length
  | m, [] => by cases m <;> rfl
  | 0, _ :: rest => by simp [truncateModes, length_truncateModes 0 rest]
  | n + 1, x :: rest => by simp [truncateModes, length_truncateModes n rest]

theorem truncateModes_idem : ∀ (m : ℕ) (x : List ℚ),
    truncateModes m (truncateModes m x) = truncateModes m x
  | m, [] => by cases m <;> rfl
  | 0, _ :: rest => by simp [truncateModes, truncateModes_idem 0 rest]
  | n + 1, x :: rest => by simp [truncateModes, truncateModes_idem n rest]

theorem irfftModel_len : NpIrfftLen irfftModel := by
  intro v _
  simp [irfftModel]

theorem fourier_projector_length {f : List ℚ → List ℚ} (hf : NpIrfftLen f)
    {spec : List ℚ} (h2 : 2 ≤ spec.length) (modes : ℕ) :
    (fourier_projector f spec modes).length = 2 * (spec.length - 1) := by
  rw [fourier_projector, hf _ (by rwa [length_truncateModes]), length_truncateModes]

/-- **C9** — counterexample.  `fourier_projector` is not idempotent: its
output is a physical-space vector of a different length (`2 * (n - 1)` for an
input of length `n`), so a second application cannot reproduce the first.  At
the concrete spectral input `[1, 0, 0]` (under the length-law model of the
external `np.fft.irfft`) one application yields a length-4 vector and two
applications a length-6 vector. -/
theorem fourier_projector_not_idempotent :
    fourier_projector irfftModel (fourier_projector irfftModel [1, 0, 0] 21) 21 ≠
      fourier_projector irfftModel [1, 0, 0] 21 := by
  decide

/-- **C9** — amended claim, proved.  The spectral truncation step of `project`
(zeroing all coefficients at index ≥ `modes`) is idempotent; the full
`project` (truncation followed by the external inverse real FFT) is not: for
every function with `np.fft.irfft`'s documented output-length law and every
input of length ≥ 3, applying `project` twice differs from applying it once
(the lengths `2*(2*(n-1)-1)` and `2*(n-1)` disagree). -/
theorem truncation_idempotent_amended :
    (∀ (modes : ℕ) (spec : List ℚ),
      truncateModes modes (truncateModes modes spec) = truncateModes modes spec) ∧
    (∀ f : List ℚ → List ℚ, NpIrfftLen f → ∀ (modes : ℕ) (spec : List ℚ),
      3 ≤ spec.length →
      fourier_projector f (fourier_projector f spec modes) modes ≠
        fourier_projector f spec modes) := by
  refine ⟨truncateModes_idem, ?_⟩
  intro f hf modes spec h3 heq
  have h2 : 2 ≤ spec.length := by omega
  have hlen1 : (fourier_projector f spec modes).length = 2 * (spec.length - 1) :=
    fourier_projector_length hf h2 modes
  have h2' : 2 ≤ (fourier_projector f spec modes).length := by omega
  have hlen2 : (fourier_projector f (fourier_projector f spec modes) modes).length =
      2 * ((fourier_projector f spec modes).length - 1) :=
    fourier_projector_length hf h2' modes
  have := congrArg List.length heq
  omega

/-- Witness for `truncation_idempotent_amended` at concrete inputs. -/
theorem truncation_idempotent_amended_witness :
    truncateModes 2 (truncateModes 2 ([5, 7, 11] : List ℚ)) =
      truncateModes 2 [5, 7, 11] ∧
    NpIrfftLen irfftModel ∧ 3 ≤ ([1, 0, 0] : List ℚ).length ∧
    fourier_projector irfftModel (fourier_projector irfftModel [1, 0, 0] 21) 21 ≠
      fourier_projector irfftModel [1, 0, 0] 21 :=
  ⟨truncation_idempotent_amended.1 2 [5, 7, 11], irfftModel_len, by decide,
    truncation_idempotent_amended.2 irfftModel irfftModel_len 21 [1, 0, 0] (by decide)⟩

/-- **C5**.  `simulation_wrapper` returns exactly one of {result, sentinel}:
when the loop returns a `RunResult` the wrapper passes it through with no
diagnostics; when the loop raises, the wrapper swallows the exception,
emits the offending ParameterSet with the formatted diagnostic to the
diagnostics channel, and returns the `None` sentinel. -/
theorem simulation_wrapper_total {ρ : Type} (sim : ParameterSet → Except String ρ)
    (params : ParameterSet) :
    (∃ r, sim params = .ok r ∧ simulation_wrapper sim params = (some r, [])) ∨
    (∃ msg, sim params = .error msg ∧
      simulation_wrapper sim params = (none, [(params, msg)])) := by
  cases h : sim params with
  | ok r => exact .inl ⟨r, rfl, by simp [simulation_wrapper, h]⟩
  | error m => exact .inr ⟨m, rfl, by simp [simulation_wrapper, h]⟩

theorem runSimsLoop_index {ν : Type} (outdir : String) :
    ∀ (results : List (ParameterSet × Option ν)) (i : ℕ) (index : List IndexEntry)
      (events : List (Event ν)) (snaps : List (List IndexEntry)),
      (runSimsLoop outdir results i index events snaps).1 =
        index ++ entriesFrom outdir i results
  | [], i, index, events, snaps => by simp [runSimsLoop, entriesFrom]
  | (p, r) :: rest, i, index, events, snaps => by
    simp only [runSimsLoop]
    split
    · rw [runSimsLoop_index outdir rest]
      simp [entriesFrom]
    · rw [runSimsLoop_index outdir rest]
      simp [entriesFrom]

theorem length_entriesFrom {ν : Type} (outdir : String) :
    ∀ (i : ℕ) (results : List (ParameterSet × Option ν)),
      (entriesFrom outdir i results).length = results.length
  | _, [] => rfl
  | i, _ :: rest => by simp [entriesFrom, length_entriesFrom outdir (i + 1) rest]

theorem getElem?_entriesFrom {ν : Type} (outdir : String) :
    ∀ (i : ℕ) (results : List (ParameterSet × Option ν)) (j : ℕ),
      (entriesFrom outdir i results)[j]? =
        (results[j]?).map (fun pr => mkEntry outdir (i + j) pr.1 pr.2)
  | _, [], j => by simp [entriesFrom]
  | i, (p, r) :: rest, 0 => by simp [entriesFrom]
  | i, (p, r) :: rest, j + 1 => by
    have e : i + 1 + j = i + (j + 1) := by omega
    simp only [entriesFrom, List.getElem?_cons_succ]
    rw [getElem?_entriesFrom outdir (i + 1) rest j, e]

theorem entriesFrom_shape {ν : Type} (outdir : String) :
    ∀ (i : ℕ) (results : List (ParameterSet × Option ν)) (e : IndexEntry),
      e ∈ entriesFrom outdir i results →
      (e.succeded = true → (∃ fn, e.filename = some fn) ∧ e.error = none) ∧
      (e.succeded = false → e.error = some "" ∧ e.filename = none)
  | _, [], e, he => absurd he (List.not_mem_nil e)
  | i, (p, r) :: rest, e, he => by
    rcases List.mem_cons.1 he with h | h
    · subst h
      cases r with
      | some res => exact ⟨fun _ => ⟨⟨_, rfl⟩, rfl⟩, fun hf => by simp [mkEntry] at hf⟩
      | none => exact ⟨fun ht => by simp [mkEntry] at ht, fun _ => ⟨rfl, rfl⟩⟩
    · exact entriesFrom_shape outdir (i + 1) rest e h

theorem countP_add_countP_not {α : Type} (l : List α) (p : α → Bool) :
    l.countP p + l.countP (fun a => !(p a)) = l.length := by
  induction l with
  | nil => rfl
  | cons a t ih =>
    by_cases h : p a = true <;> simp [List.countP_cons, h] <;> omega

theorem runSimsLoop_events_mono {ν : Type} (outdir : String) :
    ∀ (results : List (ParameterSet × Option ν)) (i : ℕ) (index : List IndexEntry)
      (events : List (Event ν)) (snaps : List (List IndexEntry)),
      ∃ suffix, (runSimsLoop outdir results i index events snaps).2.1 = events ++ suffix
  | [], i, index, events, snaps => ⟨[.writeIndexFile index], by simp [runSimsLoop]⟩
  | (p, r) :: rest, i, index, events, snaps => by
    simp only [runSimsLoop]
    split
    · obtain ⟨s, hs⟩ := runSimsLoop_events_mono outdir rest (i + 1)
        (index ++ [mkEntry outdir i p r])
        (events ++ stepEvents outdir i p r ++
          [Event.writeIndexFile (index ++ [mkEntry outdir i p r])])
        (snaps ++ [index ++ [mkEntry outdir i p r]])
      exact ⟨stepEvents outdir i p r ++
        [Event.writeIndexFile (index ++ [mkEntry outdir i p r])] ++ s,
        by rw [hs]; simp⟩
    · obtain ⟨s, hs⟩ := runSimsLoop_events_mono outdir rest (i + 1)
        (index ++ [mkEntry outdir i p r])
        (events ++ stepEvents outdir i p r) snaps
      exact ⟨stepEvents outdir i p r ++ s, by rw [hs]; simp⟩

theorem runSimsLoop_event_split {ν : Type} (outdir : String) :
    ∀ (results : List (ParameterSet × Option ν)) (i : ℕ) (index : List IndexEntry)
      (events : List (Event ν)) (snaps : List (List IndexEntry))
      (j : ℕ) (p : ParameterSet) (res : ν),
      results[j]? = some (p, some res) →
      ∃ pre post, (runSimsLoop outdir results i index events snaps).2.1 =
        pre ++ Event.writeArtifact (artifactName outdir (i + j)) res ::
          Event.appendEntry (mkEntry outdir (i + j) p (some res)) :: post
  | [], _, _, _, _, j, _, _, h => by simp at h
  | (q, r) :: rest, i, index, events, snaps, 0, p, res, h => by
    rw [List.getElem?_cons_zero, Option.some_inj] at h
    obtain ⟨hq, hr⟩ : q = p ∧ r = some res :=
      ⟨congrArg Prod.fst h, congrArg Prod.snd h⟩
    subst hq
    subst hr
    simp only [runSimsLoop]
    split
    · obtain ⟨s, hs⟩ := runSimsLoop_events_mono outdir rest (i + 1)
        (index ++ [mkEntry outdir i q (some res)])
        (events ++ stepEvents outdir i q (some res) ++
          [Event.writeIndexFile (index ++ [mkEntry outdir i q (some res)])])
        (snaps ++ [index ++ [mkEntry outdir i q (some res)]])
      refine ⟨events,
        Event.writeIndexFile (index ++ [mkEntry outdir i q (some res)]) :: s, ?_⟩
      rw [hs]
      simp [stepEvents]
    · obtain ⟨s, hs⟩ := runSimsLoop_events_mono outdir rest (i + 1)
        (index ++ [mkEntry outdir i q (some res)])
        (events ++ stepEvents outdir i q (some res)) snaps
      refine ⟨events, s, ?_⟩
      rw [hs]
      simp [stepEvents]
  | (q, r) :: rest, i, index, events, snaps, j + 1, p, res, h => by
    rw [List.getElem?_cons_succ] at h
    have e : i + 1 + j = i + (j + 1) := by omega
    simp only [runSimsLoop]
    split
    · have := runSimsLoop_event_split outdir rest (i + 1)
        (index ++ [mkEntry outdir i q r])
        (events ++ stepEvents outdir i q r ++
          [Event.writeIndexFile (index ++ [mkEntry outdir i q r])])
        (snaps ++ [index ++ [mkEntry outdir i q r]]) j p res h
      rwa [e] at this
    · have := runSimsLoop_event_split outdir rest (i + 1)
        (index ++ [mkEntry outdir i q r])
        (events ++ stepEvents outdir i q r) snaps j p res h
      rwa [e] at this

theorem runSimsLoop_snaps_mod {ν : Type} (outdir : String) :
    ∀ (results : List (ParameterSet × Option ν)) (i : ℕ) (index : List IndexEntry)
      (events : List (Event ν)) (snaps : List (List IndexEntry)),
      index.length = i →
      ∀ s ∈ (runSimsLoop outdir results i index events snaps).2.2,
        s ∈ snaps ∨ s.length % 10 = 9
  | [], i, index, events, snaps, _, s, hs => .inl (by simpa [runSimsLoop] using hs)
  | (p, r) :: rest, i, index, events, snaps, hlen, s, hs => by
    simp only [runSimsLoop] at hs
    by_cases hc : (i + 1 + 1) % 10 = 0
    · rw [if_pos hc] at hs
      rcases runSimsLoop_snaps_mod outdir rest (i + 1)
          (index ++ [mkEntry outdir i p r]) _ _ (by simp [hlen]) s hs with hin | hmod
      · rcases List.mem_append.1 hin with h | h
        · exact .inl h
        · right
          have hse : s = index ++ [mkEntry outdir i p r] := by simpa using h
          subst hse
          simp only [List.length_append, List.length_singleton, hlen]
          omega
      · exact .inr hmod
    · rw [if_neg hc] at hs
      exact runSimsLoop_snaps_mod outdir rest (i + 1)
        (index ++ [mkEntry outdir i p r]) _ _ (by simp [hlen]) s hs

/-- Every periodic (non-final) on-disk snapshot written by
`run_simulations_low` has a number of entries ≡ 9 (mod 10): the code tests
`(i+1) % 10 == 0` *after* `i += 1`, so the write fires after the 9th, 19th,
… completion, not the 10th, 20th, …. -/
theorem run_simulations_low_snapshot_sizes {ν : Type} (cpu_count : ℕ)
    (func : ParameterSet → Option ν) (outdir : String) (n_jobs : Option ℕ)
    (param_list : List ParameterSet) :
    ∀ s ∈ (run_simulations_low cpu_count func outdir n_jobs param_list).snapshots,
      s.length % 10 = 9 := by
  intro s hs
  have := runSimsLoop_snaps_mod outdir (param_list.map (fun p => (p, func p)))
    0 [] [] [] rfl s (by simpa [run_simulations_low] using hs)
  rcases this with h | h
  · cases h
  · exact h

/-- **C3** — the code contradicts the claim (and its own progress message):
for a batch of 40 tasks the periodic index snapshots contain 9, 19, 29 and 39
entries — never a multiple of 10.  A batch interrupted after 23 of 40
completions therefore leaves a last periodic snapshot of 19 entries. -/
theorem index_snapshot_sizes_bug :
    ((run_simulations_low 4 (fun _ => (none : Option Unit)) "test" none
        (List.replicate 40 ([] : ParameterSet))).snapshots.map List.length) =
      [9, 19, 29, 39] := by
  decide

/-- **C6**.  After a batch of N ParameterSets completes, the index has exactly
N entries; the entries with `succeded = true` and those with
`succeded = false` together count N; successful entries carry a filename and
no error, failed entries carry the empty-string error and no filename. -/
theorem index_completeness {ν : Type} (cpu_count : ℕ) (func : ParameterSet → Option ν)
    (outdir : String) (n_jobs : Option ℕ) (param_list : List ParameterSet) :
    (run_simulations_low cpu_count func outdir n_jobs param_list).index.length =
      param_list.length ∧
    (run_simulations_low cpu_count func outdir n_jobs param_list).index.countP
        (fun e => e.succeded) +
      (run_simulations_low cpu_count func outdir n_jobs param_list).index.countP
        (fun e => !(e.succeded)) = param_list.length ∧
    ∀ e ∈ (run_simulations_low cpu_count func outdir n_jobs param_list).index,
      (e.succeded = true → (∃ fn, e.filename = some fn) ∧ e.error = none) ∧
      (e.succeded = false → e.error = some "" ∧ e.filename = none) := by
  have hidx : (run_simulations_low cpu_count func outdir n_jobs param_list).index =
      entriesFrom outdir 0 (param_list.map (fun p => (p, func p))) := by
    simp [run_simulations_low, runSimsLoop_index]
  have hlen : (run_simulations_low cpu_count func outdir n_jobs param_list).index.length =
      param_list.length := by
    rw [hidx, length_entriesFrom, List.length_map]
  refine ⟨hlen, ?_, ?_⟩
  · rw [countP_add_countP_not, hlen]
  · intro e he
    rw [hidx] at he
    exact entriesFrom_shape outdir 0 _ e he

/-- Witness for `index_completeness` at a concrete two-task batch. -/
theorem index_completeness_witness :
    (run_simulations_low 4 (fun _ => (some 0 : Option ℕ)) "t" none
        [c2Base, c1Base]).index.length = [c2Base, c1Base].length ∧
    (run_simulations_low 4 (fun _ => (some 0 : Option ℕ)) "t" none
        [c2Base, c1Base]).index.countP (fun e => e.succeded) +
      (run_simulations_low 4 (fun _ => (some 0 : Option ℕ)) "t" none
        [c2Base, c1Base]).index.countP (fun e => !(e.succeded)) =
        [c2Base, c1Base].length ∧
    ∀ e ∈ (run_simulations_low 4 (fun _ => (some 0 : Option ℕ)) "t" none
        [c2Base, c1Base]).index,
      (e.succeded = true → (∃ fn, e.filename = some fn) ∧ e.error = none) ∧
      (e.succeded = false → e.error = some "" ∧ e.filename = none) :=
  index_completeness 4 (fun _ => (some 0 : Option ℕ)) "t" none [c2Base, c1Base]

/-- **C7**.  Results are consumed in submission order: the `i`-th IndexEntry
has the `i`-th submitted ParameterSet as its `params`; when that run
succeeded, the entry's filename is `<outdir>/results_<i>.npz` (named by the
run's position) and the event trace shows the artifact write immediately
preceding the index append. -/
theorem ordered_consumption {ν : Type} (cpu_count : ℕ) (func : ParameterSet → Option ν)
    (outdir : String) (n_jobs : Option ℕ) (param_list : List ParameterSet)
    (i : ℕ) (p : ParameterSet) (hp : param_list[i]? = some p) :
    ∃ e, (run_simulations_low cpu_count func outdir n_jobs param_list).index[i]? = some e ∧
      e.params = p ∧
      ∀ res, func p = some res →
        e.filename = some (artifactName outdir i) ∧
        ∃ pre post, (run_simulations_low cpu_count func outdir n_jobs param_list).events =
          pre ++ Event.writeArtifact (artifactName outdir i) res ::
            Event.appendEntry e :: post := by
  have hidx : (run_simulations_low cpu_count func outdir n_jobs param_list).index =
      entriesFrom outdir 0 (param_list.map (fun p => (p, func p))) := by
    simp [run_simulations_low, runSimsLoop_index]
  have hres : (param_list.map (fun p => (p, func p)))[i]? = some (p, func p) := by
    rw [List.getElem?_map, hp]; rfl
  refine ⟨mkEntry outdir i p (func p), ?_, ?_, ?_⟩
  · rw [hidx, getElem?_entriesFrom, hres]
    simp
  · cases hf : func p <;> simp [mkEntry]
  · intro res hres2
    refine ⟨by rw [hres2]; rfl, ?_⟩
    have hres3 : (param_list.map (fun p => (p, func p)))[i]? = some (p, some res) := by
      rw [hres, hres2]
    obtain ⟨pre, post, hsp⟩ := runSimsLoop_event_split outdir
      (param_list.map (fun p => (p, func p))) 0 [] [] [] i p res hres3
    refine ⟨pre, post, ?_⟩
    rw [hres2]
    simpa [run_simulations_low] using hsp

/-- Witness for `ordered_consumption` at a concrete one-task batch. -/
theorem ordered_consumption_witness :
    ([c2Base] : List ParameterSet)[0]? = some c2Base ∧
    ∃ e, (run_simulations_low 4 (fun _ => (some 7 : Option ℕ)) "t" none
        [c2Base]).index[0]? = some e ∧
      e.params = c2Base ∧
      ∀ res, (fun (_ : ParameterSet) => (some 7 : Option ℕ)) c2Base = some res →
        e.filename = some (artifactName "t" 0) ∧
        ∃ pre post, (run_simulations_low 4 (fun _ => (some 7 : Option ℕ)) "t" none
          [c2Base]).events =
            pre ++ Event.writeArtifact (artifactName "t" 0) res ::
              Event.appendEntry e :: post :=
  ⟨rfl, ordered_consumption 4 (fun _ => (some 7 : Option ℕ)) "t" none [c2Base] 0 c2Base rfl⟩

/-- **C10**.  A `run_batch` call always runs its batch with pool size
`min(max(1, 3 * cpu_count / 4), number of tasks)` (floor division): the
`n_jobs` argument accepted by `run_batch` is never forwarded to
`run_simulations_low`, so it has no effect whatsoever on the execution. -/
theorem pool_size_formula {ν : Type} (cpu_count : ℕ) (func : ParameterSet → Option ν)
    (outdir : String) (base_params : ParameterSet) (ranges : List (String × List Value))
    (n_jobs : Option ℕ) (S : OrchState ν)
    (h : run_batch_exec cpu_count func outdir base_params ranges n_jobs = .ok S) :
    (∃ pl, run_batch base_params ranges = .ok pl ∧
      S.processes = min (max 1 (3 * cpu_count / 4)) pl.length) ∧
    ∀ j : Option ℕ, run_batch_exec cpu_count func outdir base_params ranges j =
      run_batch_exec cpu_count func outdir base_params ranges n_jobs := by
  constructor
  · rw [run_batch_exec] at h
    cases hrb : run_batch base_params ranges with
    | error e => rw [hrb] at h; cases h
    | ok pl =>
      rw [hrb] at h
      simp only [Except.map] at h
      cases h
      exact ⟨pl, rfl, rfl⟩
  · intro j
    rfl

/-- Witness for `pool_size_formula`: 8 CPUs and a 2-task batch, with an
ignored `n_jobs = some 99`, give pool size `min(max(1, 6), 2) = 2`. -/
theorem pool_size_formula_witness :
    run_batch_exec 8 (fun _ => (none : Option Unit)) "out" c1Base c1Ranges (some 99) =
      .ok c10State ∧
    c10State.processes = 2 ∧
    ((∃ pl, run_batch c1Base c1Ranges = .ok pl ∧
      c10State.processes = min (max 1 (3 * 8 / 4)) pl.length) ∧
    ∀ j : Option ℕ,
      run_batch_exec 8 (fun _ => (none : Option Unit)) "out" c1Base c1Ranges j =
        run_batch_exec 8 (fun _ => (none : Option Unit)) "out" c1Base c1Ranges (some 99)) := by
  have hrb : run_batch c1Base c1Ranges = .ok c1Out := by decide
  have hok : run_batch_exec 8 (fun _ => (none : Option Unit)) "out" c1Base c1Ranges
      (some 99) = .ok c10State := by
    rw [run_batch_exec, hrb]; rfl
  exact ⟨hok, by decide,
    pool_size_formula 8 (fun _ => (none : Option Unit)) "out" c1Base c1Ranges
      (some 99) c10State hok⟩

theorem simStep_inv {σ τ β : Type} (ops : SolverOps σ τ β) (keys : List String)
    (k : ℕ) (st : LoopState σ τ)
    (h1 : st.interp_errors.length = k) (h2 : st.true_errors.length = k)
    (h3 : st.param_errors.map Prod.fst = keys)
    (h4 : ∀ kv ∈ st.param_errors, kv.2.length = k) :
    (simStep ops st).interp_errors.length = k + 1 ∧
    (simStep ops st).true_errors.length = k + 1 ∧
    (simStep ops st).param_errors.map Prod.fst = keys ∧
    ∀ kv ∈ (simStep ops st).param_errors, kv.2.length = k + 1 := by
  refine ⟨by simp [simStep, h1], by simp [simStep, h2], ?_, ?_⟩
  · rw [← h3]
    simp [simStep]
  · intro kv hkv
    simp only [simStep, List.mem_map] at hkv
    obtain ⟨kv0, hkv0, rfl⟩ := hkv
    simp [h4 kv0 hkv0]

theorem iterate_inv {σ τ β : Type} (ops : SolverOps σ τ β) (keys : List String)
    (st0 : LoopState σ τ)
    (h1 : st0.interp_errors.length = 0) (h2 : st0.true_errors.length = 0)
    (h3 : st0.param_errors.map Prod.fst = keys)
    (h4 : ∀ kv ∈ st0.param_errors, kv.2.length = 0) (n : ℕ) :
    ((fun st => simStep ops st)^[n] st0).interp_errors.length = n ∧
    ((fun st => simStep ops st)^[n] st0).true_errors.length = n ∧
    ((fun st => simStep ops st)^[n] st0).param_errors.map Prod.fst = keys ∧
    ∀ kv ∈ ((fun st => simStep ops st)^[n] st0).param_errors, kv.2.length = n := by
  induction n with
  | zero =>
    rw [Function.iterate_zero_apply]
    exact ⟨h1, h2, h3, h4⟩
  | succ n ih =>
    rw [Function.iterate_succ_apply']
    obtain ⟨i1, i2, i3, i4⟩ := ih
    exact simStep_inv ops keys n _ i1 i2 i3 i4

theorem mem_set {α : Type} :
    ∀ (d : List (String × α)) (k : String) (v : α) (kv : String × α),
      kv ∈ PyDict.set d k v → kv = (k, v) ∨ kv ∈ d
  | [], k, v, kv, h => by simpa [PyDict.set] using h
  | kv0 :: rest, k, v, kv, h => by
    by_cases hk : kv0.1 = k
    · simp only [PyDict.set, if_pos hk] at h
      rcases List.mem_cons.1 h with h | h
      · exact .inl h
      · exact .inr (List.mem_cons_of_mem _ h)
    · simp only [PyDict.set, if_neg hk] at h
      rcases List.mem_cons.1 h with h | h
      · exact .inr (h ▸ List.mem_cons_self _ _)
      · rcases mem_set rest k v kv h with h | h
        · exact .inl h
        · exact .inr (List.mem_cons_of_mem _ h)

theorem mem_overlay {α : Type} :
    ∀ (upd : List (String × α)) (base : List (String × α)) (kv : String × α),
      kv ∈ overlay base upd → kv ∈ base ∨ kv ∈ upd
  | [], _, _, h => .inl h
  | u :: rest, base, kv, h => by
    rw [overlay_cons] at h
    rcases mem_overlay rest _ kv h with h | h
    · rcases mem_set base u.1 u.2 kv h with h | h
      · exact .inr (by rw [h]; exact List.mem_cons_self _ _)
      · exact .inl h
    · exact .inr (List.mem_cons_of_mem _ h)

theorem mem_of_get? {α : Type} :
    ∀ {d : List (String × α)} {k : String} {v : α},
      PyDict.get? d k = some v → (k, v) ∈ d
  | [], _, _, h => by cases h
  | kv :: rest, k, v, h => by
    by_cases hk : kv.1 = k
    · rw [PyDict.get?, if_pos hk] at h
      cases h
      have he : (k, kv.2) = kv := by rw [← hk]
      exact he ▸ List.mem_cons_self _ _
    · rw [PyDict.get?, if_neg hk] at h
      exact List.mem_cons_of_mem _ (mem_of_get? h)

/-- **C8**.  A (successful) run with step size `dt > 0` and total time
`max_t ≥ 0` executes exactly `⌊max_t / dt⌋` loop iterations (Python's
`int(max_t/dt)` truncates toward zero, which is the floor for non-negative
arguments): every series in the returned mapping — `interp_errors`,
`true_errors`, and each estimated parameter's error series — has length
exactly `⌊max_t / dt⌋`. -/
theorem run_simulation_series_lengths {σ τ β : Type} (ops : SolverOps σ τ β)
    (initial_guess : List (String × ℚ)) (dt max_t : ℚ) (true0 : σ) (est0 : τ)
    (hdt : 0 < dt) (hmt : 0 ≤ max_t) :
    (∀ kv ∈ run_simulation ops initial_guess dt max_t true0 est0,
      kv.2.length = (⌊max_t / dt⌋).toNat) ∧
    (∃ s, PyDict.get? (run_simulation ops initial_guess dt max_t true0 est0)
        "interp_errors" = some s ∧ s.length = (⌊max_t / dt⌋).toNat) ∧
    (∃ s, PyDict.get? (run_simulation ops initial_guess dt max_t true0 est0)
        "true_errors" = some s ∧ s.length = (⌊max_t / dt⌋).toNat) ∧
    ∀ p ∈ initial_guess.map Prod.fst,
      ∃ s, PyDict.get? (run_simulation ops initial_guess dt max_t true0 est0) p =
        some s ∧ s.length = (⌊max_t / dt⌋).toNat := by
  have hq : 0 ≤ max_t / dt := div_nonneg hmt (le_of_lt hdt)
  have hpy : (pyInt (max_t / dt)).toNat = (⌊max_t / dt⌋).toNat := by
    rw [pyInt, if_pos hq]
  obtain ⟨i1, i2, i3, i4⟩ := iterate_inv ops (initial_guess.map Prod.fst)
    { tru := true0, est := est0, interp_errors := [], true_errors := [],
      param_errors := (initial_guess.map Prod.fst).map (fun p => (p, [])) }
    rfl rfl (by simp)
    (by
      intro kv hkv
      obtain ⟨p, -, rfl⟩ := List.mem_map.1 hkv
      rfl)
    ((pyInt (max_t / dt)).toNat)
  set F := (fun st => simStep ops st)^[(pyInt (max_t / dt)).toNat]
    { tru := true0, est := est0, interp_errors := [], true_errors := [],
      param_errors := (initial_guess.map Prod.fst).map (fun p => (p, [])) } with hF
  have hrs : run_simulation ops initial_guess dt max_t true0 est0 =
      overlay F.param_errors
        [("interp_errors", F.interp_errors), ("true_errors", F.true_errors)] := rfl
  have hall : ∀ kv ∈ run_simulation ops initial_guess dt max_t true0 est0,
      kv.2.length = (⌊max_t / dt⌋).toNat := by
    intro kv hkv
    rw [hrs] at hkv
    rcases mem_overlay _ _ kv hkv with h | h
    · rw [← hpy]
      exact i4 kv h
    · rcases List.mem_cons.1 h with h | h
      · rw [h, ← hpy]
        exact i1
      · rcases List.mem_cons.1 h with h | h
        · rw [h, ← hpy]
          exact i2
        · cases h
  have hnd : ((([("interp_errors", F.interp_errors),
      ("true_errors", F.true_errors)]) : List (String × List ℚ)).map Prod.fst).Nodup := by
    simp
  refine ⟨hall, ?_, ?_, ?_⟩
  · refine ⟨F.interp_errors, ?_, by rw [← hpy]; exact i1⟩
    rw [hrs]
    exact get?_overlay_of_mem _ _ _ _ hnd (List.mem_cons_self _ _)
  · refine ⟨F.true_errors, ?_, by rw [← hpy]; exact i2⟩
    rw [hrs]
    exact get?_overlay_of_mem _ _ _ _ hnd
      (List.mem_cons_of_mem _ (List.mem_cons_self _ _))
  · intro p hp
    have hcont : PyDict.contains
        (run_simulation ops initial_guess dt max_t true0 est0) p = true := by
      rw [hrs]
      refine (contains_overlay_iff _ _ _).2 (.inl ?_)
      rw [PyDict.contains_iff_mem_keys, i3]
      exact hp
    obtain ⟨s, hs⟩ := Option.isSome_iff_exists.1 (isSome_get?_of_contains hcont)
    exact ⟨s, hs, hall (p, s) (mem_of_get? hs)⟩

/-- Witness for `run_simulation_series_lengths`: the trivial solver with
`dt = 2`, `max_t = 6` (so `⌊max_t/dt⌋ = 3` steps). -/
theorem run_simulation_series_lengths_witness :
    (0 : ℚ) < 2 ∧ (0 : ℚ) ≤ 6 ∧
    ((∀ kv ∈ run_simulation trivialOps [("lambda2", 2)] 2 6 () (),
      kv.2.length = (⌊(6 : ℚ) / 2⌋).toNat) ∧
    (∃ s, PyDict.get? (run_simulation trivialOps [("lambda2", 2)] 2 6 () ())
        "interp_errors" = some s ∧ s.length = (⌊(6 : ℚ) / 2⌋).toNat) ∧
    (∃ s, PyDict.get? (run_simulation trivialOps [("lambda2", 2)] 2 6 () ())
        "true_errors" = some s ∧ s.length = (⌊(6 : ℚ) / 2⌋).toNat) ∧
    ∀ p ∈ ([("lambda2", (2 : ℚ))] : List (String × ℚ)).map Prod.fst,
      ∃ s, PyDict.get? (run_simulation trivialOps [("lambda2", 2)] 2 6 () ()) p =
        some s ∧ s.length = (⌊(6 : ℚ) / 2⌋).toNat) :=
  ⟨by norm_num, by norm_num,
    run_simulation_series_lengths trivialOps [("lambda2", 2)] 2 6 () ()
      (by norm_num) (by norm_num)⟩

end KSE
